import Mathlib

/-!
# Verification of the CMT delay-line engine (`src/delay.cpp`)

Shallow embedding of the delay / feedback-delay plugin core of the
Computer Music Toolkit (`delay.cpp`).  `LADSPA_Data` (a C `float`) is
modelled by exact rationals `ℚ`: every arithmetic operation of the C
source is transcribed literally over `ℚ`, so the development captures
the real-number semantics of the algorithms (floating-point rounding
error is out of scope).  `unsigned long` quantities (buffer size, write
pointer, sample counts, the computed delay in samples) are modelled by
`ℕ`; all index arithmetic in the source is performed through the
bit-mask `&&& (bufferSize - 1)` exactly as in the C code, and the one
`unsigned` subtraction (`writeOffset + bufferSize - lDelay`) is `ℕ`
subtraction, which agrees with the C computation whenever
`lDelay ≤ writeOffset + bufferSize` — established below for every
constructed engine, where `lDelay < bufferSize` always holds.
-/

namespace CMTDelay

/-- `LIMIT_BETWEEN(x, a, b)` from `delay.cpp` line 45:
`((x) < a) ? a : (((x) > b) ? b : (x))`. -/
def LIMIT_BETWEEN (x a b : ℚ) : ℚ :=
  if x < a then a else if b < x then b else x

/-- The `DelayLine` class state (`delay.cpp` lines 66–106): sample rate and
maximum delay (floats, here `ℚ`), the power-of-two buffer size, the sample
buffer, and the write pointer. -/
structure DelayLine where
  m_fSampleRate : ℚ
  m_fMaximumDelay : ℚ
  m_lBufferSize : ℕ
  m_pfBuffer : List ℚ
  m_lWritePointer : ℕ
  deriving DecidableEq, Repr

/-- `lMinimumBufferSize` from the constructor (line 95):
`(unsigned long)((LADSPA_Data)lSampleRate * m_fMaximumDelay) + 1`.
The C cast truncates the (non-negative, for valid inputs) product toward
zero, i.e. takes the floor. -/
def minimumBufferSize (lSampleRate : ℕ) (fMaximumDelay : ℚ) : ℕ :=
  (⌊(lSampleRate : ℚ) * fMaximumDelay⌋).toNat + 1

/-- The sizing loop of the constructor (lines 97–99):
`m_lBufferSize = 1; while (m_lBufferSize < lMinimumBufferSize) m_lBufferSize <<= 1;`
transcribed with explicit fuel; `growBufferSize lMin lMin 1` always supplies
enough fuel because doubling from 1 reaches `lMin` within `lMin` steps. -/
def growBufferSize (lMinimumBufferSize : ℕ) : ℕ → ℕ → ℕ
  | 0, cur => cur
  | fuel + 1, cur =>
    if cur < lMinimumBufferSize then growBufferSize lMinimumBufferSize fuel (cur <<< 1)
    else cur

/-- The `DelayLine` constructor (lines 89–101).  The C++ buffer contents and
write pointer are unspecified until `activateDelayLine`; we model them as
zero / 0 (every claim about processing goes through activation first). -/
def DelayLine.init (lSampleRate : ℕ) (fMaximumDelay : ℚ) : DelayLine :=
  let lMin := minimumBufferSize lSampleRate fMaximumDelay
  let size := growBufferSize lMin lMin 1
  { m_fSampleRate := (lSampleRate : ℚ)
    m_fMaximumDelay := fMaximumDelay
    m_lBufferSize := size
    m_pfBuffer := List.replicate size 0
    m_lWritePointer := 0 }

/-- `activateDelayLine` (lines 111–124): zero-fill the buffer, reset the
write pointer. -/
def activateDelayLine (dl : DelayLine) : DelayLine :=
  { dl with
    m_pfBuffer := List.replicate dl.m_lBufferSize 0
    m_lWritePointer := 0 }

/-- The clamped delay-time port value used by both run functions
(lines 137–139 / 187–189): `LIMIT_BETWEEN(*delayPort, 0, m_fMaximumDelay)`. -/
def clampedDelaySeconds (dl : DelayLine) (delayPort : ℚ) : ℚ :=
  LIMIT_BETWEEN delayPort 0 dl.m_fMaximumDelay

/-- The clamped dry/wet port value (lines 153–156 / 209–212):
`LIMIT_BETWEEN(*dryWetPort, 0, 1)`. -/
def clampedWet (dryWetPort : ℚ) : ℚ :=
  LIMIT_BETWEEN dryWetPort 0 1

/-- The clamped feedback port value (lines 215–218):
`LIMIT_BETWEEN(*feedbackPort, -1, 1)`. -/
def clampedFeedback (feedbackPort : ℚ) : ℚ :=
  LIMIT_BETWEEN feedbackPort (-1) 1

/-- `lDelay` as computed by both run functions (lines 136–140 / 186–190):
`(unsigned long)(LIMIT_BETWEEN(*delayPort, 0, m_fMaximumDelay) * m_fSampleRate)`;
the cast truncates the non-negative product, i.e. floor. -/
def lDelay (dl : DelayLine) (delayPort : ℚ) : ℕ :=
  (⌊clampedDelaySeconds dl delayPort * dl.m_fSampleRate⌋).toNat

/-- The per-sample loop of `runSimpleDelayLine` (lines 160–169).  Note the
order in the source: the input sample is stored into the buffer FIRST
(line 164), and the delayed sample is read afterwards (line 167), from the
possibly-just-updated buffer.  Returns (output samples, final buffer). -/
def simpleDelayLoop (lBufferSizeMinusOne lBufferReadOffset lBufferWriteOffset : ℕ)
    (fDry fWet : ℚ) : ℕ → List ℚ → List ℚ → List ℚ × List ℚ
  | _, pfBuffer, [] => ([], pfBuffer)
  | lSampleIndex, pfBuffer, fInputSample :: rest =>
    let pfBuffer1 := pfBuffer.set
      ((lSampleIndex + lBufferWriteOffset) &&& lBufferSizeMinusOne) fInputSample
    let fOutputSample := fDry * fInputSample
      + fWet * pfBuffer1.getD ((lSampleIndex + lBufferReadOffset) &&& lBufferSizeMinusOne) 0
    let r := simpleDelayLoop lBufferSizeMinusOne lBufferReadOffset lBufferWriteOffset
      fDry fWet (lSampleIndex + 1) pfBuffer1 rest
    (fOutputSample :: r.1, r.2)

/-- `runSimpleDelayLine` (lines 129–174).  The input block is the list
`pfInput` (so `SampleCount = pfInput.length`); returns the output block and
the updated engine. -/
def runSimpleDelayLine (dl : DelayLine) (delayPort dryWetPort : ℚ)
    (pfInput : List ℚ) : List ℚ × DelayLine :=
  let lBufferSizeMinusOne := dl.m_lBufferSize - 1
  let d := lDelay dl delayPort
  let lBufferWriteOffset := dl.m_lWritePointer
  let lBufferReadOffset := lBufferWriteOffset + dl.m_lBufferSize - d
  let fWet := clampedWet dryWetPort
  let fDry := 1 - fWet
  let r := simpleDelayLoop lBufferSizeMinusOne lBufferReadOffset lBufferWriteOffset
    fDry fWet 0 dl.m_pfBuffer pfInput
  (r.1,
   { dl with
     m_pfBuffer := r.2
     m_lWritePointer := (dl.m_lWritePointer + pfInput.length) &&& lBufferSizeMinusOne })

/-- The per-sample loop of `runFeedbackDelayLine` (lines 220–233): read the
delayed sample FIRST (line 225), emit the output, then write
`input + delayed * feedback` (lines 230–232). -/
def feedbackDelayLoop (lBufferSizeMinusOne lBufferReadOffset lBufferWriteOffset : ℕ)
    (fDry fWet fFeedback : ℚ) : ℕ → List ℚ → List ℚ → List ℚ × List ℚ
  | _, pfBuffer, [] => ([], pfBuffer)
  | lSampleIndex, pfBuffer, fInputSample :: rest =>
    let fDelayedSample := pfBuffer.getD
      ((lSampleIndex + lBufferReadOffset) &&& lBufferSizeMinusOne) 0
    let fOutputSample := fDry * fInputSample + fWet * fDelayedSample
    let pfBuffer1 := pfBuffer.set
      ((lSampleIndex + lBufferWriteOffset) &&& lBufferSizeMinusOne)
      (fInputSample + fDelayedSample * fFeedback)
    let r := feedbackDelayLoop lBufferSizeMinusOne lBufferReadOffset lBufferWriteOffset
      fDry fWet fFeedback (lSampleIndex + 1) pfBuffer1 rest
    (fOutputSample :: r.1, r.2)

/-- `runFeedbackDelayLine` (lines 179–238), including the zero-delay
correction of lines 191–196: `if (lDelay == 0) lDelay = 1;`. -/
def runFeedbackDelayLine (dl : DelayLine) (delayPort dryWetPort feedbackPort : ℚ)
    (pfInput : List ℚ) : List ℚ × DelayLine :=
  let lBufferSizeMinusOne := dl.m_lBufferSize - 1
  let d0 := lDelay dl delayPort
  let d := if d0 = 0 then 1 else d0
  let lBufferWriteOffset := dl.m_lWritePointer
  let lBufferReadOffset := lBufferWriteOffset + dl.m_lBufferSize - d
  let fWet := clampedWet dryWetPort
  let fDry := 1 - fWet
  let fFeedback := clampedFeedback feedbackPort
  let r := feedbackDelayLoop lBufferSizeMinusOne lBufferReadOffset lBufferWriteOffset
    fDry fWet fFeedback 0 dl.m_pfBuffer pfInput
  (r.1,
   { dl with
     m_pfBuffer := r.2
     m_lWritePointer := (dl.m_lWritePointer + pfInput.length) &&& lBufferSizeMinusOne })

/-- One block-processing call: either run function with its per-block port
values.  This is the per-block interface the host exercises. -/
inductive DelayOp where
  | simple (delayPort dryWetPort : ℚ) (input : List ℚ)
  | feedback (delayPort dryWetPort feedbackPort : ℚ) (input : List ℚ)
  deriving DecidableEq, Repr

/-- The input block carried by an operation. -/
def DelayOp.input : DelayOp → List ℚ
  | .simple _ _ i => i
  | .feedback _ _ _ i => i

/-- Apply one operation to an engine. -/
def runOp (dl : DelayLine) : DelayOp → List ℚ × DelayLine
  | .simple d w i => runSimpleDelayLine dl d w i
  | .feedback d w f i => runFeedbackDelayLine dl d w f i

/-- Apply a sequence of block-processing operations, concatenating outputs. -/
def runOps (dl : DelayLine) : List DelayOp → List ℚ × DelayLine
  | [] => ([], dl)
  | op :: ops =>
    let r := runOp dl op
    let rs := runOps r.2 ops
    (r.1 ++ rs.1, rs.2)

/-- Process a list of blocks through the simple delay with fixed port
values, concatenating the outputs — the multi-block stream semantics. -/
def processBlocksSimple (dl : DelayLine) (delayPort dryWetPort : ℚ) :
    List (List ℚ) → List ℚ × DelayLine
  | [] => ([], dl)
  | b :: bs =>
    let r := runSimpleDelayLine dl delayPort dryWetPort b
    let rs := processBlocksSimple r.2 delayPort dryWetPort bs
    (r.1 ++ rs.1, rs.2)

/-- An impulse stream of length `L`: sample `p` is `1`, all others `0`. -/
def impulseList (L p : ℕ) : List ℚ :=
  (List.range L).map fun j => if j = p then 1 else 0

/-- The buffer after only the write half of the simple-delay loop: the
`lSampleIndex`-th input sample is stored at
`(lSampleIndex + writeOffset) &&& mask` (line 164). -/
def writeFold (lBufferSizeMinusOne lBufferWriteOffset : ℕ) :
    ℕ → List ℚ → List ℚ → List ℚ
  | _, pfBuffer, [] => pfBuffer
  | lSampleIndex, pfBuffer, fInputSample :: rest =>
    writeFold lBufferSizeMinusOne lBufferWriteOffset (lSampleIndex + 1)
      (pfBuffer.set ((lSampleIndex + lBufferWriteOffset) &&& lBufferSizeMinusOne) fInputSample)
      rest

/-- The engine states reachable through the plugin lifecycle: construction
with valid parameters, activation, and block processing by either run
function. -/
inductive Reachable : DelayLine → Prop
  | init (lSampleRate : ℕ) (fMaximumDelay : ℚ)
      (h1 : 0 < lSampleRate) (h2 : 0 < fMaximumDelay) :
      Reachable (DelayLine.init lSampleRate fMaximumDelay)
  | activate {dl : DelayLine} : Reachable dl → Reachable (activateDelayLine dl)
  | runSimple {dl : DelayLine} (delayPort dryWetPort : ℚ) (input : List ℚ) :
      Reachable dl → Reachable (runSimpleDelayLine dl delayPort dryWetPort input).2
  | runFeedback {dl : DelayLine} (delayPort dryWetPort feedbackPort : ℚ) (input : List ℚ) :
      Reachable dl → Reachable (runFeedbackDelayLine dl delayPort dryWetPort feedbackPort input).2

/-- Structural invariant of every reachable engine state: the buffer length
matches the recorded power-of-two size, the write pointer is in range, the
sample rate is non-negative, the maximum delay positive, and the maximum
delay in samples fits strictly inside the buffer. -/
def GoodState (dl : DelayLine) : Prop :=
  dl.m_pfBuffer.length = dl.m_lBufferSize ∧
  (∃ k : ℕ, dl.m_lBufferSize = 2 ^ k) ∧
  dl.m_lWritePointer < dl.m_lBufferSize ∧
  0 ≤ dl.m_fSampleRate ∧
  0 < dl.m_fMaximumDelay ∧
  (⌊dl.m_fSampleRate * dl.m_fMaximumDelay⌋).toNat < dl.m_lBufferSize

/-! ## Basic list-access and arithmetic helpers -/

/-- Reading a just-written slot yields the written sample. -/
theorem getD_set_self (l : List ℚ) (n : ℕ) (a : ℚ) (h : n < l.length) :
    (l.set n a).getD n 0 = a := by
  simp [List.getD_eq_getElem?_getD, List.getElem?_set_self', List.getElem?_eq_getElem h]

/-- Writing one slot leaves every other slot unchanged. -/
theorem getD_set_ne (l : List ℚ) (n j : ℕ) (a : ℚ) (h : n ≠ j) :
    (l.set n a).getD j 0 = l.getD j 0 := by
  simp [List.getD_eq_getElem?_getD, List.getElem?_set_ne h]

/-- A zero-filled buffer reads zero everywhere. -/
theorem getD_replicate_zero (n i : ℕ) : (List.replicate n (0 : ℚ)).getD i 0 = 0 := by
  rcases lt_or_le i n with h | h
  · simp [List.getD_eq_getElem?_getD, List.getElem?_replicate, h]
  · have : (List.replicate n (0 : ℚ)).length ≤ i := by simpa using h
    simp [List.getD_eq_default _ _ this]

/-- Bit-masking with `2 ^ k - 1` is reduction mod `2 ^ k`; this is the
`index & (bufferSize - 1)` idiom of the source. -/
theorem masked_eq_mod (k x : ℕ) : x &&& (2 ^ k - 1) = x % 2 ^ k :=
  Nat.and_pow_two_sub_one_eq_mod x k

/-- Every masked index is strictly below the power-of-two buffer size. -/
theorem masked_lt_pow2 (k x : ℕ) : x &&& (2 ^ k - 1) < 2 ^ k := by
  rw [masked_eq_mod]
  exact Nat.mod_lt _ (Nat.pos_pow_of_pos _ (by norm_num))

/-- Two numbers in a common window of width `N` with equal residues are
equal. -/
theorem eq_of_mod_eq_of_window (N a b c : ℕ) (h : a % N = b % N)
    (ha1 : c ≤ a) (ha2 : a < c + N) (hb1 : c ≤ b) (hb2 : b < c + N) : a = b := by
  rcases le_total a b with hab | hab
  · have hdvd : N ∣ b - a := (Nat.modEq_iff_dvd' hab).mp h
    have : b - a = 0 := Nat.eq_zero_of_dvd_of_lt hdvd (by omega)
    omega
  · have hdvd : N ∣ a - b := (Nat.modEq_iff_dvd' hab).mp h.symm
    have : a - b = 0 := Nat.eq_zero_of_dvd_of_lt hdvd (by omega)
    omega

/-- Adding a nonzero offset smaller than the modulus changes the residue. -/
theorem add_mod_ne (N a c : ℕ) (h1 : 0 < c) (h2 : c < N) : (a + c) % N ≠ a % N := by
  intro h
  have := eq_of_mod_eq_of_window N (a + c) a a h (by omega) (by omega) (by omega) (by omega)
  omega

/-! ## `LIMIT_BETWEEN` saturation facts -/

theorem le_LIMIT_BETWEEN (x a b : ℚ) (hab : a ≤ b) : a ≤ LIMIT_BETWEEN x a b := by
  unfold LIMIT_BETWEEN
  split
  · exact le_refl a
  · split
    · exact hab
    · linarith [not_lt.mp (by assumption : ¬ x < a)]

theorem LIMIT_BETWEEN_le (x a b : ℚ) (hab : a ≤ b) : LIMIT_BETWEEN x a b ≤ b := by
  unfold LIMIT_BETWEEN
  split
  · exact hab
  · split
    · exact le_refl b
    · linarith [not_lt.mp (by assumption : ¬ b < x)]

theorem LIMIT_BETWEEN_of_lt (x a b : ℚ) (h : x < a) : LIMIT_BETWEEN x a b = a := by
  simp [LIMIT_BETWEEN, h]

theorem LIMIT_BETWEEN_of_gt (x a b : ℚ) (hab : a ≤ b) (h : b < x) : LIMIT_BETWEEN x a b = b := by
  have : ¬ x < a := by linarith
  simp [LIMIT_BETWEEN, this, h]

theorem LIMIT_BETWEEN_of_mem (x a b : ℚ) (h1 : a ≤ x) (h2 : x ≤ b) : LIMIT_BETWEEN x a b = x := by
  have h3 : ¬ x < a := by linarith
  have h4 : ¬ b < x := by linarith
  simp [LIMIT_BETWEEN, h3, h4]

/-! ## Buffer-sizing facts -/

/-- The sizing loop preserves "is a power of two". -/
theorem growBufferSize_pow2 (lMin : ℕ) (fuel : ℕ) :
    ∀ cur : ℕ, (∃ j, cur = 2 ^ j) → ∃ k, growBufferSize lMin fuel cur = 2 ^ k := by
  induction fuel with
  | zero => intro cur h; exact h
  | succ n ih =>
    intro cur h
    by_cases hc : cur < lMin
    · simp only [growBufferSize, if_pos hc]
      apply ih
      obtain ⟨j, rfl⟩ := h
      exact ⟨j + 1, by simp [Nat.shiftLeft_eq, pow_succ]⟩
    · simpa [growBufferSize, hc] using h

/-- With enough fuel the sizing loop reaches the requested minimum. -/
theorem le_growBufferSize (lMin : ℕ) (fuel : ℕ) :
    ∀ cur : ℕ, 1 ≤ cur → lMin ≤ cur + fuel → lMin ≤ growBufferSize lMin fuel cur := by
  induction fuel with
  | zero => intro cur h1 h2; simpa [growBufferSize] using h2
  | succ n ih =>
    intro cur h1 h2
    by_cases hc : cur < lMin
    · simp only [growBufferSize, if_pos hc]
      refine ih (cur <<< 1) ?_ ?_ <;> simp [Nat.shiftLeft_eq] <;> omega
    · simp only [growBufferSize, if_neg hc]; omega

/-- The sizing loop never overshoots a power of two that already meets the
minimum: the result is the least sufficient power of two. -/
theorem growBufferSize_le_pow (lMin m : ℕ) (fuel : ℕ) :
    ∀ cur j : ℕ, cur = 2 ^ j → cur ≤ 2 ^ m → lMin ≤ 2 ^ m →
      growBufferSize lMin fuel cur ≤ 2 ^ m := by
  induction fuel with
  | zero => intro cur j hj hle hmin; simpa [growBufferSize] using hle
  | succ n ih =>
    intro cur j hj hle hmin
    by_cases hc : cur < lMin
    · simp only [growBufferSize, if_pos hc]
      have h2 : (2 : ℕ) ^ j < 2 ^ m := lt_of_lt_of_le (hj ▸ hc) hmin
      have hjm : j < m := (Nat.pow_lt_pow_iff_right (by norm_num)).mp h2
      refine ih (cur <<< 1) (j + 1) (by simp [Nat.shiftLeft_eq, hj, pow_succ]) ?_ hmin
      calc cur <<< 1 = 2 ^ (j + 1) := by simp [Nat.shiftLeft_eq, hj, pow_succ]
        _ ≤ 2 ^ m := Nat.pow_le_pow_right (by norm_num) hjm
    · simp only [growBufferSize, if_neg hc]; exact hle

/-- The constructed buffer size is a power of two. -/
theorem init_bufferSize_pow2 (lSampleRate : ℕ) (fMaximumDelay : ℚ) :
    ∃ k, (DelayLine.init lSampleRate fMaximumDelay).m_lBufferSize = 2 ^ k :=
  growBufferSize_pow2 _ _ 1 ⟨0, rfl⟩

/-- The constructed buffer size meets the requested minimum. -/
theorem minimumBufferSize_le_init (lSampleRate : ℕ) (fMaximumDelay : ℚ) :
    minimumBufferSize lSampleRate fMaximumDelay
      ≤ (DelayLine.init lSampleRate fMaximumDelay).m_lBufferSize :=
  le_growBufferSize _ _ 1 (le_refl 1) (by omega)

/-- The constructed buffer size is positive. -/
theorem init_bufferSize_pos (lSampleRate : ℕ) (fMaximumDelay : ℚ) :
    0 < (DelayLine.init lSampleRate fMaximumDelay).m_lBufferSize := by
  have := minimumBufferSize_le_init lSampleRate fMaximumDelay
  unfold minimumBufferSize at this
  omega

/-! ## Per-sample loop lemmas -/

theorem simpleDelayLoop_fst_length (m ro wo : ℕ) (dry wet : ℚ) (xs : List ℚ) :
    ∀ (i : ℕ) (buf : List ℚ),
      (simpleDelayLoop m ro wo dry wet i buf xs).1.length = xs.length := by
  induction xs with
  | nil => intro i buf; rfl
  | cons x rest ih =>
    intro i buf
    simp only [simpleDelayLoop, List.length_cons, ih]

theorem simpleDelayLoop_snd_length (m ro wo : ℕ) (dry wet : ℚ) (xs : List ℚ) :
    ∀ (i : ℕ) (buf : List ℚ),
      (simpleDelayLoop m ro wo dry wet i buf xs).2.length = buf.length := by
  induction xs with
  | nil => intro i buf; rfl
  | cons x rest ih =>
    intro i buf
    simp only [simpleDelayLoop, ih, List.length_set]

theorem feedbackDelayLoop_snd_length (m ro wo : ℕ) (dry wet fb : ℚ) (xs : List ℚ) :
    ∀ (i : ℕ) (buf : List ℚ),
      (feedbackDelayLoop m ro wo dry wet fb i buf xs).2.length = buf.length := by
  induction xs with
  | nil => intro i buf; rfl
  | cons x rest ih =>
    intro i buf
    simp only [feedbackDelayLoop, ih, List.length_set]

/-- The final buffer of the simple-delay loop is exactly the fold of the
per-sample writes (the reads do not touch the buffer). -/
theorem simpleDelayLoop_snd_eq (m ro wo : ℕ) (dry wet : ℚ) (xs : List ℚ) :
    ∀ (i : ℕ) (buf : List ℚ),
      (simpleDelayLoop m ro wo dry wet i buf xs).2 = writeFold m wo i buf xs := by
  induction xs with
  | nil => intro i buf; rfl
  | cons x rest ih =>
    intro i buf
    simp only [simpleDelayLoop, writeFold, ih]

theorem writeFold_length (m wo : ℕ) (xs : List ℚ) :
    ∀ (i : ℕ) (buf : List ℚ), (writeFold m wo i buf xs).length = buf.length := by
  induction xs with
  | nil => intro i buf; rfl
  | cons x rest ih =>
    intro i buf
    simp only [writeFold, ih, List.length_set]

/-- Appending one more sample to the write fold performs one more store, at
the running index of that sample. -/
theorem writeFold_append (m wo : ℕ) (xs : List ℚ) (x : ℚ) :
    ∀ (i : ℕ) (buf : List ℚ),
      writeFold m wo i buf (xs ++ [x])
        = (writeFold m wo i buf xs).set ((i + xs.length + wo) &&& m) x := by
  induction xs with
  | nil => intro i buf; simp [writeFold]
  | cons y rest ih =>
    intro i buf
    simp only [List.cons_append, writeFold, List.length_cons]
    rw [show rest.append [x] = rest ++ [x] from rfl, ih]
    have h : i + 1 + rest.length + wo = i + (rest.length + 1) + wo := by omega
    rw [h]

/-- The outputs of the simple-delay loop, sample by sample: output `j` blends
the `j`-th input with the buffer value at the read index, taken after the
writes of samples `0..j` (the write of sample `j` happens before its read). -/
theorem simpleDelayLoop_fst_eq (m ro wo : ℕ) (dry wet : ℚ) (xs : List ℚ) :
    ∀ (i : ℕ) (buf : List ℚ),
      (simpleDelayLoop m ro wo dry wet i buf xs).1
        = (List.range xs.length).map fun j =>
            dry * xs.getD j 0
              + wet * (writeFold m wo i buf (xs.take (j + 1))).getD ((i + j + ro) &&& m) 0 := by
  induction xs with
  | nil => intro i buf; rfl
  | cons x rest ih =>
    intro i buf
    simp only [simpleDelayLoop, List.length_cons]
    rw [List.range_succ_eq_map, List.map_cons, List.map_map]
    congr 1
    case e_tail =>
      rw [ih]
      apply List.map_congr_left
      intro j hj
      simp only [Function.comp_apply, Nat.succ_eq_add_one, List.getD_cons_succ,
        List.take_succ_cons]
      have h2 : i + (j + 1) + ro = i + 1 + j + ro := by omega
      rw [h2]
      rfl

/-- When every read index coincides with the same sample's write index and
the writes land inside the buffer, each output reads back the sample that
was just stored: the write of sample `i` happens BEFORE its read. -/
theorem simpleDelayLoop_read_just_written (m ro wo : ℕ) (dry wet : ℚ) (xs : List ℚ) :
    ∀ (i : ℕ) (buf : List ℚ),
      (∀ j, (j + ro) &&& m = (j + wo) &&& m) →
      (∀ j, (j + wo) &&& m < buf.length) →
      (simpleDelayLoop m ro wo dry wet i buf xs).1 = xs.map fun x => dry * x + wet * x := by
  induction xs with
  | nil => intros; rfl
  | cons x rest ih =>
    intro i buf hro hlen
    simp only [simpleDelayLoop, List.map_cons]
    congr 1
    case e_head =>
      rw [hro i, getD_set_self _ _ _ (hlen i)]
    case e_tail =>
      refine ih (i + 1) _ hro ?_
      intro j
      rw [List.length_set]
      exact hlen j

/-- With zero feedback gain, the feedback loop computes exactly the simple
loop, provided no read index collides with the same iteration's write index
(the two loops order the read and the write differently). -/
theorem feedbackDelayLoop_zero_fb (m ro wo : ℕ) (dry wet : ℚ) (xs : List ℚ) :
    ∀ (i : ℕ) (buf : List ℚ),
      (∀ j, (j + wo) &&& m ≠ (j + ro) &&& m) →
      feedbackDelayLoop m ro wo dry wet 0 i buf xs
        = simpleDelayLoop m ro wo dry wet i buf xs := by
  induction xs with
  | nil => intros; rfl
  | cons x rest ih =>
    intro i buf hne
    simp only [feedbackDelayLoop, simpleDelayLoop, mul_zero, add_zero]
    rw [getD_set_ne _ _ _ _ (hne i)]
    rw [ih (i + 1) _ hne]

/-- The simple-delay loop only sees its offsets through the running masked
indices: re-basing read offset, write offset and starting index leaves the
computation unchanged as long as all masked indices agree. -/
theorem simpleDelayLoop_congr_offsets (m : ℕ) (dry wet : ℚ) (xs : List ℚ) :
    ∀ (ro wo i ro2 wo2 i2 : ℕ) (buf : List ℚ),
      (∀ j, (i + j + ro) &&& m = (i2 + j + ro2) &&& m) →
      (∀ j, (i + j + wo) &&& m = (i2 + j + wo2) &&& m) →
      simpleDelayLoop m ro wo dry wet i buf xs
        = simpleDelayLoop m ro2 wo2 dry wet i2 buf xs := by
  induction xs with
  | nil => intros; rfl
  | cons x rest ih =>
    intro ro wo i ro2 wo2 i2 buf hr hw
    simp only [simpleDelayLoop]
    have hr0 := hr 0
    have hw0 := hw 0
    simp only [Nat.add_zero] at hr0 hw0
    rw [hr0, hw0]
    rw [ih ro wo (i + 1) ro2 wo2 (i2 + 1) _ ?_ ?_]
    · intro j
      have e1 : i + 1 + j + ro = i + (j + 1) + ro := by omega
      have e2 : i2 + 1 + j + ro2 = i2 + (j + 1) + ro2 := by omega
      rw [e1, e2]
      exact hr (j + 1)
    · intro j
      have e1 : i + 1 + j + wo = i + (j + 1) + wo := by omega
      have e2 : i2 + 1 + j + wo2 = i2 + (j + 1) + wo2 := by omega
      rw [e1, e2]
      exact hw (j + 1)

/-- Splitting one loop run over a concatenated block into two consecutive
runs, the second starting at the advanced sample index. -/
theorem simpleDelayLoop_append (m ro wo : ℕ) (dry wet : ℚ) (xs ys : List ℚ) :
    ∀ (i : ℕ) (buf : List ℚ),
      simpleDelayLoop m ro wo dry wet i buf (xs ++ ys)
        = ((simpleDelayLoop m ro wo dry wet i buf xs).1
            ++ (simpleDelayLoop m ro wo dry wet (i + xs.length)
                 (simpleDelayLoop m ro wo dry wet i buf xs).2 ys).1,
           (simpleDelayLoop m ro wo dry wet (i + xs.length)
             (simpleDelayLoop m ro wo dry wet i buf xs).2 ys).2) := by
  induction xs with
  | nil => intro i buf; simp [simpleDelayLoop]
  | cons x rest ih =>
    intro i buf
    simp only [List.cons_append, simpleDelayLoop, List.length_cons, List.cons_append]
    rw [show rest.append ys = rest ++ ys from rfl, ih (i + 1)]
    have h : i + 1 + rest.length = i + (rest.length + 1) := by omega
    rw [h]

/-! ## State invariants -/

/-- The computed sample delay never exceeds the maximum delay in samples. -/
theorem lDelay_le_maxSamples {dl : DelayLine} (hrate : 0 ≤ dl.m_fSampleRate)
    (hmd : 0 ≤ dl.m_fMaximumDelay) (delayPort : ℚ) :
    lDelay dl delayPort ≤ (⌊dl.m_fSampleRate * dl.m_fMaximumDelay⌋).toNat := by
  unfold lDelay
  have h1 : clampedDelaySeconds dl delayPort ≤ dl.m_fMaximumDelay :=
    LIMIT_BETWEEN_le _ _ _ hmd
  have h2 : clampedDelaySeconds dl delayPort * dl.m_fSampleRate
      ≤ dl.m_fSampleRate * dl.m_fMaximumDelay := by
    rw [mul_comm]
    exact mul_le_mul_of_nonneg_left h1 hrate
  exact Int.toNat_le_toNat (Int.floor_le_floor h2)

/-- In every good state the computed sample delay fits strictly inside the
buffer, so the read offset `writePointer + bufferSize - lDelay` never
underflows and the read window never aliases a full buffer turn. -/
theorem lDelay_lt_bufferSize {dl : DelayLine} (h : GoodState dl) (delayPort : ℚ) :
    lDelay dl delayPort < dl.m_lBufferSize := by
  obtain ⟨-, -, -, hrate, hmd, hlt⟩ := h
  exact lt_of_le_of_lt (lDelay_le_maxSamples hrate (le_of_lt hmd) delayPort) hlt

/-- A freshly constructed engine is in a good state. -/
theorem GoodState.init (lSampleRate : ℕ) (fMaximumDelay : ℚ)
    (h2 : 0 < fMaximumDelay) : GoodState (DelayLine.init lSampleRate fMaximumDelay) := by
  have hsz := minimumBufferSize_le_init lSampleRate fMaximumDelay
  have hpos := init_bufferSize_pos lSampleRate fMaximumDelay
  refine ⟨?_, init_bufferSize_pow2 _ _, ?_, ?_, h2, ?_⟩
  · simp [DelayLine.init]
  · exact hpos
  · simp [DelayLine.init]
  · unfold minimumBufferSize at hsz
    simpa [DelayLine.init] using (by omega :
      (⌊(lSampleRate : ℚ) * fMaximumDelay⌋).toNat
        < (DelayLine.init lSampleRate fMaximumDelay).m_lBufferSize)

/-- Activation preserves the good-state invariant. -/
theorem GoodState.activate {dl : DelayLine} (h : GoodState dl) :
    GoodState (activateDelayLine dl) := by
  obtain ⟨hlen, ⟨k, hk⟩, hwp, hrate, hmd, hlt⟩ := h
  refine ⟨?_, ⟨k, hk⟩, ?_, hrate, hmd, hlt⟩
  · simp [activateDelayLine]
  · simp only [activateDelayLine]
    omega

/-- The simple delay preserves the good-state invariant. -/
theorem GoodState.runSimple {dl : DelayLine} (h : GoodState dl)
    (delayPort dryWetPort : ℚ) (input : List ℚ) :
    GoodState (runSimpleDelayLine dl delayPort dryWetPort input).2 := by
  obtain ⟨hlen, ⟨k, hk⟩, hwp, hrate, hmd, hlt⟩ := h
  refine ⟨?_, ⟨k, ?_⟩, ?_, hrate, hmd, ?_⟩ <;>
    simp only [runSimpleDelayLine, simpleDelayLoop_snd_length]
  · exact hlen
  · exact hk
  · rw [hk]
    exact masked_lt_pow2 ..
  · exact hlt

/-- The feedback delay preserves the good-state invariant. -/
theorem GoodState.runFeedback {dl : DelayLine} (h : GoodState dl)
    (delayPort dryWetPort feedbackPort : ℚ) (input : List ℚ) :
    GoodState (runFeedbackDelayLine dl delayPort dryWetPort feedbackPort input).2 := by
  obtain ⟨hlen, ⟨k, hk⟩, hwp, hrate, hmd, hlt⟩ := h
  refine ⟨?_, ⟨k, ?_⟩, ?_, hrate, hmd, ?_⟩ <;>
    simp only [runFeedbackDelayLine, feedbackDelayLoop_snd_length]
  · exact hlen
  · exact hk
  · rw [hk]
    exact masked_lt_pow2 ..
  · exact hlt

/-- Every reachable engine state is good. -/
theorem Reachable.good {dl : DelayLine} (h : Reachable dl) : GoodState dl := by
  induction h with
  | init r md h1 h2 => exact GoodState.init r md h2
  | activate _ ih => exact ih.activate
  | runSimple dp wp input _ ih => exact ih.runSimple dp wp input
  | runFeedback dp wp fp input _ ih => exact ih.runFeedback dp wp fp input

theorem runSimple_zeroDelay {dl : DelayLine} (h : GoodState dl) (delayPort dryWetPort : ℚ)
    (hD : lDelay dl delayPort = 0) (input : List ℚ) :
    (runSimpleDelayLine dl delayPort dryWetPort input).1
      = input.map fun x => (1 - clampedWet dryWetPort) * x + clampedWet dryWetPort * x := by
  obtain ⟨hlen, ⟨k, hk⟩, hwp, -, -, -⟩ := h
  simp only [runSimpleDelayLine, hD, Nat.sub_zero]
  apply simpleDelayLoop_read_just_written
  · intro j
    rw [hk, masked_eq_mod, masked_eq_mod, ← Nat.add_assoc, Nat.add_mod_right]
  · intro j
    rw [hlen, hk]
    exact masked_lt_pow2 ..

theorem runFeedback_zeroFb {dl : DelayLine} (h : GoodState dl)
    (delayPort dryWetPort : ℚ) (input : List ℚ) (hD : lDelay dl delayPort ≠ 0) :
    runFeedbackDelayLine dl delayPort dryWetPort 0 input
      = runSimpleDelayLine dl delayPort dryWetPort input := by
  obtain ⟨hlen, ⟨k, hk⟩, hwp, hrate, hmd, hlt⟩ := h
  have hDlt : lDelay dl delayPort < dl.m_lBufferSize :=
    lt_of_le_of_lt (lDelay_le_maxSamples hrate (le_of_lt hmd) delayPort) hlt
  have hfb : clampedFeedback 0 = 0 :=
    LIMIT_BETWEEN_of_mem 0 (-1) 1 (by norm_num) (by norm_num)
  have hD2 : lDelay dl delayPort < 2 ^ k := hk ▸ hDlt
  have hne : ∀ j, (j + dl.m_lWritePointer) &&& (dl.m_lBufferSize - 1)
      ≠ (j + (dl.m_lWritePointer + dl.m_lBufferSize - lDelay dl delayPort))
          &&& (dl.m_lBufferSize - 1) := by
    intro j
    rw [hk, masked_eq_mod, masked_eq_mod]
    have e : j + (dl.m_lWritePointer + 2 ^ k - lDelay dl delayPort)
        = j + dl.m_lWritePointer + (2 ^ k - lDelay dl delayPort) := by omega
    rw [e]
    exact (add_mod_ne (2 ^ k) (j + dl.m_lWritePointer)
      (2 ^ k - lDelay dl delayPort) (by omega) (by omega)).symm
  simp only [runFeedbackDelayLine, runSimpleDelayLine, if_neg hD, hfb]
  rw [feedbackDelayLoop_zero_fb _ _ _ _ _ input 0 dl.m_pfBuffer hne]

theorem mod_absorb (n a b : ℕ) : (b + a % n) % n = (a + b) % n := by
  have e : b + a % n = a % n + b := by omega
  rw [e, Nat.mod_add_mod]

theorem runSimpleDelayLine_append {dl : DelayLine} (h : GoodState dl)
    (delayPort dryWetPort : ℚ) (xs ys : List ℚ) :
    runSimpleDelayLine dl delayPort dryWetPort (xs ++ ys)
      = ((runSimpleDelayLine dl delayPort dryWetPort xs).1
          ++ (runSimpleDelayLine (runSimpleDelayLine dl delayPort dryWetPort xs).2
               delayPort dryWetPort ys).1,
         (runSimpleDelayLine (runSimpleDelayLine dl delayPort dryWetPort xs).2
           delayPort dryWetPort ys).2) := by
  obtain ⟨hlen, ⟨k, hk⟩, hwp, hrate, hmd, hlt⟩ := h
  have hDlt : lDelay dl delayPort < dl.m_lBufferSize :=
    lt_of_le_of_lt (lDelay_le_maxSamples hrate (le_of_lt hmd) delayPort) hlt
  simp only [lDelay, clampedDelaySeconds] at hDlt
  simp only [runSimpleDelayLine, lDelay, clampedDelaySeconds, List.length_append]
  rw [simpleDelayLoop_append]
  rw [hk] at hDlt ⊢
  have hr : ∀ j : ℕ,
      (0 + xs.length + j + (dl.m_lWritePointer + 2 ^ k
          - (⌊LIMIT_BETWEEN delayPort 0 dl.m_fMaximumDelay * dl.m_fSampleRate⌋).toNat))
        &&& (2 ^ k - 1)
      = (0 + j + (((dl.m_lWritePointer + xs.length) &&& (2 ^ k - 1)) + 2 ^ k
          - (⌊LIMIT_BETWEEN delayPort 0 dl.m_fMaximumDelay * dl.m_fSampleRate⌋).toNat))
        &&& (2 ^ k - 1) := by
    intro j
    rw [masked_eq_mod, masked_eq_mod, masked_eq_mod]
    have e : 0 + j + ((dl.m_lWritePointer + xs.length) % 2 ^ k + 2 ^ k
        - (⌊LIMIT_BETWEEN delayPort 0 dl.m_fMaximumDelay * dl.m_fSampleRate⌋).toNat)
        = (j + (2 ^ k
            - (⌊LIMIT_BETWEEN delayPort 0 dl.m_fMaximumDelay * dl.m_fSampleRate⌋).toNat))
          + (dl.m_lWritePointer + xs.length) % 2 ^ k := by omega
    rw [e, mod_absorb]
    congr 1
    omega
  have hw2 : ∀ j : ℕ,
      (0 + xs.length + j + dl.m_lWritePointer) &&& (2 ^ k - 1)
        = (0 + j + ((dl.m_lWritePointer + xs.length) &&& (2 ^ k - 1))) &&& (2 ^ k - 1) := by
    intro j
    rw [masked_eq_mod, masked_eq_mod, masked_eq_mod, mod_absorb]
    congr 1
    omega
  have hcur : (dl.m_lWritePointer + (xs.length + ys.length)) &&& (2 ^ k - 1)
      = (((dl.m_lWritePointer + xs.length) &&& (2 ^ k - 1)) + ys.length) &&& (2 ^ k - 1) := by
    rw [masked_eq_mod, masked_eq_mod, masked_eq_mod, Nat.mod_add_mod]
    congr 1
    omega
  rw [simpleDelayLoop_congr_offsets _ _ _ ys _ _ _ _ _ _ _ hr hw2, hcur]

theorem processBlocksSimple_eq_join {dl : DelayLine} (h : GoodState dl)
    (delayPort dryWetPort : ℚ) (bs : List (List ℚ)) :
    processBlocksSimple dl delayPort dryWetPort bs
      = runSimpleDelayLine dl delayPort dryWetPort bs.flatten := by
  induction bs generalizing dl with
  | nil =>
    obtain ⟨hlen, ⟨k, hk⟩, hwp, hrate, hmd, hlt⟩ := h
    have hwpeq : dl.m_lWritePointer &&& (dl.m_lBufferSize - 1) = dl.m_lWritePointer := by
      rw [hk, masked_eq_mod]
      exact Nat.mod_eq_of_lt (hk ▸ hwp)
    simp only [processBlocksSimple, List.flatten_nil, runSimpleDelayLine, simpleDelayLoop,
      List.length_nil, Nat.add_zero, hwpeq]
  | cons b rest ih =>
    simp only [processBlocksSimple, List.flatten_cons]
    rw [runSimpleDelayLine_append h, ih (h.runSimple delayPort dryWetPort b)]

theorem impulseList_length (L p : ℕ) : (impulseList L p).length = L := by
  simp [impulseList]

theorem impulseList_succ (t p : ℕ) :
    impulseList (t + 1) p = impulseList t p ++ [if t = p then 1 else 0] := by
  unfold impulseList
  rw [List.range_succ, List.map_append]
  simp

theorem impulseList_take (L p t : ℕ) (h : t ≤ L) :
    (impulseList L p).take t = impulseList t p := by
  unfold impulseList
  rw [← List.map_take, List.take_range, Nat.min_eq_left h]

theorem impulseList_getD (L p j : ℕ) (h : j < L) :
    (impulseList L p).getD j 0 = if j = p then 1 else 0 := by
  unfold impulseList
  simp [List.getD_eq_getElem?_getD, List.getElem?_map, List.getElem?_range h]

/-- Contents of the delay buffer after writing the first `t` samples of an
impulse stream into a freshly zeroed buffer (write offset 0, start index 0):
slot `p % 2^k` holds the impulse while it is inside the buffer window, all
other slots hold zero. -/
theorem writeFold_impulse (k p : ℕ) (t : ℕ) :
    ∀ s : ℕ, s < 2 ^ k →
      (writeFold (2 ^ k - 1) 0 0 (List.replicate (2 ^ k) 0) (impulseList t p)).getD s 0
        = if s = p % 2 ^ k ∧ p < t ∧ t ≤ p + 2 ^ k then 1 else 0 := by
  have hN : 0 < 2 ^ k := Nat.pos_pow_of_pos _ (by norm_num)
  induction t with
  | zero =>
    intro s hs
    simp [impulseList, writeFold, getD_replicate_zero]
  | succ t ih =>
    intro s hs
    rw [impulseList_succ, writeFold_append, impulseList_length]
    have hidx : (0 + t + 0) &&& (2 ^ k - 1) = t % 2 ^ k := by
      rw [masked_eq_mod]
      congr 1
      omega
    rw [hidx]
    by_cases hcase : t % 2 ^ k = s
    · rw [hcase, getD_set_self _ _ _
        (by rw [writeFold_length, List.length_replicate]; exact hs)]
      by_cases htp : t = p
      · subst htp
        rw [if_pos rfl, if_pos ⟨hcase ▸ rfl, by omega, by omega⟩]
      · rw [if_neg htp, if_neg]
        rintro ⟨h1, h2, h3⟩
        exact htp (eq_of_mod_eq_of_window (2 ^ k) t p p (hcase.trans h1)
          (by omega) (by omega) (by omega) (by omega))
    · rw [getD_set_ne _ _ _ _ hcase, ih s hs]
      by_cases hsp : s = p % 2 ^ k
      · have hpt : p ≠ t := by
          intro hh
          exact hcase (by rw [← hh]; exact hsp.symm)
        have hpn : t ≠ p + 2 ^ k := by
          intro hh
          apply hcase
          rw [hh, Nat.add_mod_right]
          exact hsp.symm
        have hiff : (s = p % 2 ^ k ∧ p < t ∧ t ≤ p + 2 ^ k)
            ↔ (s = p % 2 ^ k ∧ p < t + 1 ∧ t + 1 ≤ p + 2 ^ k) := by
          constructor <;> rintro ⟨a, b, c⟩ <;> exact ⟨a, by omega, by omega⟩
        exact if_congr hiff rfl rfl
      · simp [hsp]

theorem runSimple_impulse {dl : DelayLine} (k : ℕ) (hk : dl.m_lBufferSize = 2 ^ k)
    (hbuf : dl.m_pfBuffer = List.replicate dl.m_lBufferSize 0)
    (hwp : dl.m_lWritePointer = 0)
    (delayPort : ℚ) (hD : lDelay dl delayPort < dl.m_lBufferSize) (L p : ℕ) :
    (runSimpleDelayLine dl delayPort 1 (impulseList L p)).1
      = impulseList L (p + lDelay dl delayPort) := by
  have hwet : clampedWet 1 = 1 := LIMIT_BETWEEN_of_mem 1 0 1 (by norm_num) (le_refl 1)
  have hD2 : lDelay dl delayPort < 2 ^ k := hk ▸ hD
  simp only [runSimpleDelayLine, hwet, hwp, hbuf, hk, Nat.zero_add]
  rw [simpleDelayLoop_fst_eq, impulseList_length]
  show _ = (List.range L).map fun j => if j = p + lDelay dl delayPort then (1 : ℚ) else 0
  apply List.map_congr_left
  intro j hj
  rw [List.mem_range] at hj
  rw [impulseList_take L p (j + 1) (by omega)]
  rw [impulseList_getD L p j hj]
  rw [writeFold_impulse k p (j + 1) _ (masked_lt_pow2 _ _)]
  have hone : (1 : ℚ) - 1 = 0 := by norm_num
  rw [hone, zero_mul, zero_add, one_mul]
  have hiff : ((0 + j + (2 ^ k - lDelay dl delayPort)) &&& (2 ^ k - 1) = p % 2 ^ k
      ∧ p < j + 1 ∧ j + 1 ≤ p + 2 ^ k) ↔ j = p + lDelay dl delayPort := by
    rw [masked_eq_mod]
    constructor
    · rintro ⟨h1, h2, h3⟩
      have h4 : (j + 2 ^ k) % 2 ^ k = (p + lDelay dl delayPort) % 2 ^ k := by
        have e : 0 + j + (2 ^ k - lDelay dl delayPort) + lDelay dl delayPort
            = j + 2 ^ k := by omega
        calc (j + 2 ^ k) % 2 ^ k
            = (0 + j + (2 ^ k - lDelay dl delayPort) + lDelay dl delayPort) % 2 ^ k := by rw [e]
          _ = ((0 + j + (2 ^ k - lDelay dl delayPort)) % 2 ^ k + lDelay dl delayPort) % 2 ^ k := by
              rw [Nat.mod_add_mod]
          _ = (p % 2 ^ k + lDelay dl delayPort) % 2 ^ k := by rw [h1]
          _ = (p + lDelay dl delayPort) % 2 ^ k := by rw [Nat.mod_add_mod]
      rw [Nat.add_mod_right] at h4
      exact eq_of_mod_eq_of_window (2 ^ k) j (p + lDelay dl delayPort) p h4
        (by omega) (by omega) (by omega) (by omega)
    · rintro rfl
      refine ⟨?_, by omega, by omega⟩
      have e : 0 + (p + lDelay dl delayPort) + (2 ^ k - lDelay dl delayPort)
          = p + 2 ^ k := by omega
      rw [e, Nat.add_mod_right]
  exact if_congr hiff rfl rfl

/-- With full dry gain and zero wet gain the loop passes the input through
unchanged, regardless of buffer contents and offsets. -/
theorem simpleDelayLoop_fst_dry (m ro wo : ℕ) (xs : List ℚ) :
    ∀ (i : ℕ) (buf : List ℚ),
      (simpleDelayLoop m ro wo 1 0 i buf xs).1 = xs := by
  induction xs with
  | nil => intros; rfl
  | cons x rest ih =>
    intro i buf
    simp only [simpleDelayLoop, ih, one_mul, zero_mul, add_zero]

/-- `runOp` never changes the buffer size. -/
theorem runOp_bufferSize (dl : DelayLine) (op : DelayOp) :
    (runOp dl op).2.m_lBufferSize = dl.m_lBufferSize := by
  cases op <;> rfl

/-- `runOp` advances the write pointer by the block length, masked. -/
theorem runOp_writePointer (dl : DelayLine) (op : DelayOp) :
    (runOp dl op).2.m_lWritePointer
      = (dl.m_lWritePointer + op.input.length) &&& (dl.m_lBufferSize - 1) := by
  cases op <;> rfl

/-- Cursor arithmetic for arbitrary sequences of processing calls: the final
write pointer is the initial one plus the total number of processed samples,
reduced mod the (power-of-two) buffer size. -/
theorem runOps_cursor {dl : DelayLine} (k : ℕ) (hk : dl.m_lBufferSize = 2 ^ k)
    (hwp : dl.m_lWritePointer < dl.m_lBufferSize) (ops : List DelayOp) :
    (runOps dl ops).2.m_lBufferSize = dl.m_lBufferSize ∧
    (runOps dl ops).2.m_lWritePointer
      = (dl.m_lWritePointer + (ops.map fun op => op.input.length).sum)
          % dl.m_lBufferSize := by
  induction ops generalizing dl with
  | nil =>
    refine ⟨rfl, ?_⟩
    simp only [runOps, List.map_nil, List.sum_nil, Nat.add_zero]
    exact (Nat.mod_eq_of_lt hwp).symm
  | cons op rest ih =>
    simp only [runOps, List.map_cons, List.sum_cons]
    have h1 := runOp_bufferSize dl op
    have h2 := runOp_writePointer dl op
    have hwp1 : (runOp dl op).2.m_lWritePointer < (runOp dl op).2.m_lBufferSize := by
      rw [h1, h2, hk]
      exact masked_lt_pow2 ..
    obtain ⟨ha, hb⟩ := ih (by rw [h1, hk]) hwp1
    refine ⟨by rw [ha, h1], ?_⟩
    rw [hb, h2, h1, hk, masked_eq_mod, Nat.mod_add_mod]
    congr 1
    omega

/-! ## Claim theorems -/

/-- C7: for every valid construction input (positive sample rate, positive
maximum delay), the constructed buffer capacity is the smallest power of two
strictly greater than `floor(sampleRate * maximumDelaySeconds)`: it is a
power of two, it exceeds the floor, and it is at most every power of two
exceeding the floor. -/
theorem C7_bufferSize_least_pow2 (lSampleRate : ℕ) (fMaximumDelay : ℚ)
    (h1 : 0 < lSampleRate) (h2 : 0 < fMaximumDelay) :
    (∃ k, (DelayLine.init lSampleRate fMaximumDelay).m_lBufferSize = 2 ^ k) ∧
    (⌊(lSampleRate : ℚ) * fMaximumDelay⌋).toNat
      < (DelayLine.init lSampleRate fMaximumDelay).m_lBufferSize ∧
    (∀ m : ℕ, (⌊(lSampleRate : ℚ) * fMaximumDelay⌋).toNat < 2 ^ m →
      (DelayLine.init lSampleRate fMaximumDelay).m_lBufferSize ≤ 2 ^ m) := by
  refine ⟨init_bufferSize_pow2 _ _, ?_, ?_⟩
  · have h := minimumBufferSize_le_init lSampleRate fMaximumDelay
    unfold minimumBufferSize at h
    omega
  · intro m hm
    have h : minimumBufferSize lSampleRate fMaximumDelay ≤ 2 ^ m := by
      unfold minimumBufferSize
      omega
    exact growBufferSize_le_pow (minimumBufferSize lSampleRate fMaximumDelay) m
      (minimumBufferSize lSampleRate fMaximumDelay) 1 0 (by norm_num)
      (Nat.one_le_two_pow) h

/-- Witness for C7 at the spec's own instance: sample rate 44100, maximum
delay 1 second, capacity 65536. -/
theorem C7_witness :
    0 < 44100 ∧ (0 : ℚ) < 1 ∧
    ((∃ k, (DelayLine.init 44100 1).m_lBufferSize = 2 ^ k) ∧
      (⌊((44100 : ℕ) : ℚ) * 1⌋).toNat < (DelayLine.init 44100 1).m_lBufferSize ∧
      (∀ m : ℕ, (⌊((44100 : ℕ) : ℚ) * 1⌋).toNat < 2 ^ m →
        (DelayLine.init 44100 1).m_lBufferSize ≤ 2 ^ m)) ∧
    (DelayLine.init 44100 1).m_lBufferSize = 65536 :=
  ⟨by decide, by norm_num, C7_bufferSize_least_pow2 44100 1 (by decide) (by norm_num),
   by norm_num [DelayLine.init, minimumBufferSize]; decide⟩

/-- C10: every buffer access in both per-sample loops uses an index of the
form `(sampleIndex + offset) &&& (bufferSize - 1)`; for a constructed engine
the buffer size is a power of two, so every such masked index lies strictly
below the buffer size — no read or write is out of bounds. -/
theorem C10_masked_index_in_bounds (lSampleRate : ℕ) (fMaximumDelay : ℚ)
    (h1 : 0 < lSampleRate) (h2 : 0 < fMaximumDelay) (lSampleIndex lOffset : ℕ) :
    (lSampleIndex + lOffset)
        &&& ((DelayLine.init lSampleRate fMaximumDelay).m_lBufferSize - 1)
      < (DelayLine.init lSampleRate fMaximumDelay).m_lBufferSize := by
  obtain ⟨k, hk⟩ := init_bufferSize_pow2 lSampleRate fMaximumDelay
  rw [hk]
  exact masked_lt_pow2 ..

/-- Witness for C10 at a concrete engine and index. -/
theorem C10_witness :
    0 < 2 ∧ (0 : ℚ) < 1 ∧
    (7 + 5) &&& ((DelayLine.init 2 1).m_lBufferSize - 1)
      < (DelayLine.init 2 1).m_lBufferSize :=
  ⟨by decide, by norm_num, C10_masked_index_in_bounds 2 1 (by decide) (by norm_num) 7 5⟩

/-- C9: processing never fails on out-of-range parameters: the per-block
values actually used are the clamped ones, which always lie in their valid
ranges — delay time in `[0, maximumDelay]`, wet in `[0, 1]`, feedback in
`[-1, 1]` — and out-of-range inputs are saturated to the nearest bound. -/
theorem C9_parameters_clamped (dl : DelayLine) (h : 0 ≤ dl.m_fMaximumDelay)
    (delayPort dryWetPort feedbackPort : ℚ) :
    (0 ≤ clampedDelaySeconds dl delayPort
      ∧ clampedDelaySeconds dl delayPort ≤ dl.m_fMaximumDelay) ∧
    (0 ≤ clampedWet dryWetPort ∧ clampedWet dryWetPort ≤ 1) ∧
    (-1 ≤ clampedFeedback feedbackPort ∧ clampedFeedback feedbackPort ≤ 1) ∧
    (delayPort < 0 → clampedDelaySeconds dl delayPort = 0) ∧
    (dl.m_fMaximumDelay < delayPort →
      clampedDelaySeconds dl delayPort = dl.m_fMaximumDelay) ∧
    (dryWetPort < 0 → clampedWet dryWetPort = 0) ∧
    (1 < dryWetPort → clampedWet dryWetPort = 1) ∧
    (feedbackPort < -1 → clampedFeedback feedbackPort = -1) ∧
    (1 < feedbackPort → clampedFeedback feedbackPort = 1) :=
  ⟨⟨le_LIMIT_BETWEEN _ _ _ h, LIMIT_BETWEEN_le _ _ _ h⟩,
   ⟨le_LIMIT_BETWEEN _ _ _ (by norm_num), LIMIT_BETWEEN_le _ _ _ (by norm_num)⟩,
   ⟨le_LIMIT_BETWEEN _ _ _ (by norm_num), LIMIT_BETWEEN_le _ _ _ (by norm_num)⟩,
   fun hlt => LIMIT_BETWEEN_of_lt _ _ _ hlt,
   fun hgt => LIMIT_BETWEEN_of_gt _ _ _ h hgt,
   fun hlt => LIMIT_BETWEEN_of_lt _ _ _ hlt,
   fun hgt => LIMIT_BETWEEN_of_gt _ _ _ (by norm_num) hgt,
   fun hlt => LIMIT_BETWEEN_of_lt _ _ _ hlt,
   fun hgt => LIMIT_BETWEEN_of_gt _ _ _ (by norm_num) hgt⟩

/-- Witness for C9 at a concrete engine with out-of-range port values. -/
theorem C9_witness :
    (0 : ℚ) ≤ (DelayLine.init 2 1).m_fMaximumDelay ∧
    ((0 ≤ clampedDelaySeconds (DelayLine.init 2 1) 5
        ∧ clampedDelaySeconds (DelayLine.init 2 1) 5
            ≤ (DelayLine.init 2 1).m_fMaximumDelay) ∧
      (0 ≤ clampedWet (-3) ∧ clampedWet (-3) ≤ 1) ∧
      (-1 ≤ clampedFeedback 7 ∧ clampedFeedback 7 ≤ 1) ∧
      ((5 : ℚ) < 0 → clampedDelaySeconds (DelayLine.init 2 1) 5 = 0) ∧
      ((DelayLine.init 2 1).m_fMaximumDelay < 5 →
        clampedDelaySeconds (DelayLine.init 2 1) 5 = (DelayLine.init 2 1).m_fMaximumDelay) ∧
      ((-3 : ℚ) < 0 → clampedWet (-3) = 0) ∧
      ((1 : ℚ) < -3 → clampedWet (-3) = 1) ∧
      ((7 : ℚ) < -1 → clampedFeedback 7 = -1) ∧
      ((1 : ℚ) < 7 → clampedFeedback 7 = 1)) :=
  ⟨by norm_num [DelayLine.init],
   C9_parameters_clamped (DelayLine.init 2 1) (by norm_num [DelayLine.init]) 5 (-3) 7⟩

/-- C6: whenever the clamped delay parameter converts to 0 samples, the
feedback algorithm substitutes a delay of exactly 1 sample: its output block
and post-state are identical to those for a delay parameter converting to 1
sample, for every input block, wet value, and feedback value. -/
theorem C6_zero_delay_is_one_sample (dl : DelayLine)
    (delayPort delayPort1 dryWetPort feedbackPort : ℚ) (input : List ℚ)
    (h0 : lDelay dl delayPort = 0) (h1 : lDelay dl delayPort1 = 1) :
    runFeedbackDelayLine dl delayPort dryWetPort feedbackPort input
      = runFeedbackDelayLine dl delayPort1 dryWetPort feedbackPort input := by
  simp [runFeedbackDelayLine, h0, h1]

/-- Witness for C6: delay port 0 (0 samples) versus delay port 1/2 at sample
rate 2 (1 sample). -/
theorem C6_witness :
    lDelay (DelayLine.init 2 1) 0 = 0 ∧
    lDelay (DelayLine.init 2 1) (1/2) = 1 ∧
    runFeedbackDelayLine (DelayLine.init 2 1) 0 1 1 [1]
      = runFeedbackDelayLine (DelayLine.init 2 1) (1/2) 1 1 [1] :=
  ⟨by norm_num [lDelay, clampedDelaySeconds, LIMIT_BETWEEN, DelayLine.init],
   by norm_num [lDelay, clampedDelaySeconds, LIMIT_BETWEEN, DelayLine.init],
   C6_zero_delay_is_one_sample (DelayLine.init 2 1) 0 (1/2) 1 1 [1]
     (by norm_num [lDelay, clampedDelaySeconds, LIMIT_BETWEEN, DelayLine.init])
     (by norm_num [lDelay, clampedDelaySeconds, LIMIT_BETWEEN, DelayLine.init])⟩

/-- C4: with wet parameter 0 the simple delay outputs the input block
unchanged, for every delay parameter value, every engine/buffer state, and
every block size at most the capacity. -/
theorem C4_dry_output_is_input (dl : DelayLine) (delayPort : ℚ) (input : List ℚ)
    (hn : input.length ≤ dl.m_lBufferSize) :
    (runSimpleDelayLine dl delayPort 0 input).1 = input := by
  have hwet : clampedWet 0 = 0 :=
    LIMIT_BETWEEN_of_mem 0 0 1 (le_refl 0) (by norm_num)
  simp only [runSimpleDelayLine, hwet]
  rw [show (1 : ℚ) - 0 = 1 by norm_num]
  exact simpleDelayLoop_fst_dry ..

/-- Witness for C4 at a concrete engine and block. -/
theorem C4_witness :
    ([1, 2] : List ℚ).length ≤ (DelayLine.init 1 1).m_lBufferSize ∧
    (runSimpleDelayLine (DelayLine.init 1 1) (5/2) 0 [1, 2]).1 = [1, 2] :=
  ⟨by norm_num [DelayLine.init, minimumBufferSize]; decide,
   C4_dry_output_is_input (DelayLine.init 1 1) (5/2) [1, 2]
     (by norm_num [DelayLine.init, minimumBufferSize]; decide)⟩

/-- C3: with delay parameter 0 and wet parameter 1 the simple delay outputs
the input block exactly, in every reachable engine state. -/
theorem C3_zero_delay_identity {dl : DelayLine} (hre : Reachable dl)
    (input : List ℚ) :
    (runSimpleDelayLine dl 0 1 input).1 = input := by
  have hgood := hre.good
  have hmd : 0 < dl.m_fMaximumDelay := hgood.2.2.2.2.1
  have hD : lDelay dl 0 = 0 := by
    unfold lDelay clampedDelaySeconds
    rw [LIMIT_BETWEEN_of_mem 0 0 dl.m_fMaximumDelay (le_refl 0) (le_of_lt hmd)]
    simp
  rw [runSimple_zeroDelay hgood 0 1 hD input]
  have hwet : clampedWet 1 = 1 := LIMIT_BETWEEN_of_mem 1 0 1 (by norm_num) (le_refl 1)
  simp [hwet]

/-- Witness for C3 at a concrete reachable state and block. -/
theorem C3_witness :
    (runSimpleDelayLine (activateDelayLine (DelayLine.init 2 1)) 0 1 [3, -2]).1
      = [3, -2] :=
  C3_zero_delay_identity ((Reachable.init 2 1 (by decide) (by norm_num)).activate) [3, -2]

/-- A reachable engine state with a nonzero sample (5) in the buffer slot
about to be overwritten: sample rate 1, maximum delay 1, capacity 2, buffer
`[5, 7]`, write cursor 0. -/
def delayLineC2 : DelayLine :=
  (runSimpleDelayLine (activateDelayLine (DelayLine.init 1 1)) 0 0 [5, 7]).2

/-- C2 (counterexample): the claim predicts that at `delaySamples = 0`, with
wet = 1, the output for index 0 is the OLD buffer value 5 that is about to
be overwritten (`dry*input + wet*old = 5`); the code instead writes first
and reads back the new value, producing 1. -/
theorem C2_counterexample :
    lDelay delayLineC2 0 = 0 ∧
    delayLineC2.m_pfBuffer.getD 0 0 = 5 ∧
    (runSimpleDelayLine delayLineC2 0 1 [1]).1 = [1] ∧
    (runSimpleDelayLine delayLineC2 0 1 [1]).1
      ≠ [(1 - clampedWet 1) * 1 + clampedWet 1 * 5] := by
  refine ⟨?_, ?_, ?_, ?_⟩ <;>
    norm_num [delayLineC2, runSimpleDelayLine, simpleDelayLoop, lDelay,
      clampedDelaySeconds, clampedWet, LIMIT_BETWEEN, DelayLine.init,
      activateDelayLine, minimumBufferSize, growBufferSize] <;> decide

/-- C2 (amended): in the simple-delay per-sample loop the write of
`input[i]` happens BEFORE the read for index `i`; consequently, when
`delaySamples = 0` the output for index `i` is computed from the input value
just stored, `dry*input[i] + wet*input[i]`, not from the old buffer value. -/
theorem C2_write_then_read {dl : DelayLine} (hre : Reachable dl)
    (delayPort dryWetPort : ℚ) (input : List ℚ) (hD : lDelay dl delayPort = 0) :
    (runSimpleDelayLine dl delayPort dryWetPort input).1
      = input.map fun x =>
          (1 - clampedWet dryWetPort) * x + clampedWet dryWetPort * x :=
  runSimple_zeroDelay hre.good delayPort dryWetPort hD input

/-- Witness for the amended C2 at a concrete reachable state. -/
theorem C2_witness :
    lDelay (activateDelayLine (DelayLine.init 1 1)) 0 = 0 ∧
    (runSimpleDelayLine (activateDelayLine (DelayLine.init 1 1)) 0 (1/2) [4]).1
      = [4].map (fun x => (1 - clampedWet (1/2)) * x + clampedWet (1/2) * x) :=
  ⟨by norm_num [lDelay, clampedDelaySeconds, LIMIT_BETWEEN, DelayLine.init,
      activateDelayLine],
   C2_write_then_read ((Reachable.init 1 1 (by decide) (by norm_num)).activate) 0 (1/2) [4]
     (by norm_num [lDelay, clampedDelaySeconds, LIMIT_BETWEEN, DelayLine.init,
        activateDelayLine])⟩

/-- The activated engine (sample rate 1, maximum delay 1) used to refute C5. -/
def delayLineC5 : DelayLine := activateDelayLine (DelayLine.init 1 1)

/-- C5 (counterexample): with feedback 0, wet 1, delay parameter 0 (which
converts to 0 samples), the feedback delay forces a 1-sample delay and
outputs `[0]` on input `[1]` from a zeroed buffer, while the plain delay
outputs `[1]`: the two algorithms do not produce the same output block. -/
theorem C5_counterexample :
    lDelay delayLineC5 0 = 0 ∧
    (runFeedbackDelayLine delayLineC5 0 1 0 [1]).1 = [0] ∧
    (runSimpleDelayLine delayLineC5 0 1 [1]).1 = [1] ∧
    runFeedbackDelayLine delayLineC5 0 1 0 [1]
      ≠ runSimpleDelayLine delayLineC5 0 1 [1] := by
  have hfb : (runFeedbackDelayLine delayLineC5 0 1 0 [1]).1 = [0] := by
    norm_num [delayLineC5, runFeedbackDelayLine, feedbackDelayLoop, lDelay,
      clampedDelaySeconds, clampedWet, clampedFeedback, LIMIT_BETWEEN,
      DelayLine.init, activateDelayLine, minimumBufferSize, growBufferSize] <;> decide
  have hsi : (runSimpleDelayLine delayLineC5 0 1 [1]).1 = [1] := by
    norm_num [delayLineC5, runSimpleDelayLine, simpleDelayLoop, lDelay,
      clampedDelaySeconds, clampedWet, LIMIT_BETWEEN, DelayLine.init,
      activateDelayLine, minimumBufferSize, growBufferSize] <;> decide
  refine ⟨?_, hfb, hsi, ?_⟩
  · norm_num [delayLineC5, lDelay, clampedDelaySeconds, LIMIT_BETWEEN,
      DelayLine.init, activateDelayLine]
  · intro hEq
    have h1 := congrArg Prod.fst hEq
    rw [hfb, hsi] at h1
    simp at h1

/-- C5 (amended): with feedback parameter 0 and any delay parameter that
converts to at least one sample, the feedback delay produces exactly the
same output block and post-state (buffer and cursor) as the plain delay with
the same wet and delay parameters, in every reachable engine state. -/
theorem C5_feedback_zero_equals_simple {dl : DelayLine} (hre : Reachable dl)
    (delayPort dryWetPort : ℚ) (input : List ℚ) (hD : lDelay dl delayPort ≠ 0) :
    runFeedbackDelayLine dl delayPort dryWetPort 0 input
      = runSimpleDelayLine dl delayPort dryWetPort input :=
  runFeedback_zeroFb hre.good delayPort dryWetPort input hD

/-- Witness for the amended C5 at a concrete reachable state. -/
theorem C5_witness :
    lDelay (activateDelayLine (DelayLine.init 1 1)) 1 ≠ 0 ∧
    runFeedbackDelayLine (activateDelayLine (DelayLine.init 1 1)) 1 1 0 [2, 3]
      = runSimpleDelayLine (activateDelayLine (DelayLine.init 1 1)) 1 1 [2, 3] :=
  ⟨by norm_num [lDelay, clampedDelaySeconds, LIMIT_BETWEEN, DelayLine.init,
      activateDelayLine],
   C5_feedback_zero_equals_simple ((Reachable.init 1 1 (by decide) (by norm_num)).activate)
     1 1 [2, 3]
     (by norm_num [lDelay, clampedDelaySeconds, LIMIT_BETWEEN, DelayLine.init,
        activateDelayLine])⟩

/-- C8: after activation, processing any sequence of blocks through either
algorithm (block sizes at most the capacity) leaves the write cursor at the
total number of processed samples modulo the capacity; in particular the
cursor is always in `[0, capacity)`. -/
theorem C8_cursor_advance (lSampleRate : ℕ) (fMaximumDelay : ℚ)
    (h1 : 0 < lSampleRate) (h2 : 0 < fMaximumDelay) (ops : List DelayOp)
    (hsz : ∀ op ∈ ops, op.input.length
      ≤ (DelayLine.init lSampleRate fMaximumDelay).m_lBufferSize) :
    (runOps (activateDelayLine (DelayLine.init lSampleRate fMaximumDelay)) ops).2.m_lWritePointer
      = (ops.map fun op => op.input.length).sum
          % (DelayLine.init lSampleRate fMaximumDelay).m_lBufferSize ∧
    (runOps (activateDelayLine (DelayLine.init lSampleRate fMaximumDelay)) ops).2.m_lWritePointer
      < (DelayLine.init lSampleRate fMaximumDelay).m_lBufferSize := by
  obtain ⟨k, hk⟩ := init_bufferSize_pow2 lSampleRate fMaximumDelay
  have hpos := init_bufferSize_pos lSampleRate fMaximumDelay
  have hact : (activateDelayLine (DelayLine.init lSampleRate fMaximumDelay)).m_lBufferSize
      = 2 ^ k := hk
  have hwp0 : (activateDelayLine (DelayLine.init lSampleRate fMaximumDelay)).m_lWritePointer
      < (activateDelayLine (DelayLine.init lSampleRate fMaximumDelay)).m_lBufferSize := by
    show 0 < (DelayLine.init lSampleRate fMaximumDelay).m_lBufferSize
    exact hpos
  obtain ⟨hsize, hcur⟩ := runOps_cursor k hact hwp0 ops
  have hz : (activateDelayLine (DelayLine.init lSampleRate fMaximumDelay)).m_lWritePointer
      = 0 := rfl
  rw [hz, Nat.zero_add] at hcur
  refine ⟨hcur, ?_⟩
  rw [hcur]
  exact Nat.mod_lt _ hpos

/-- Witness for C8: two blocks (one plain, one feedback) of total length 3
through a capacity-2 engine leave the cursor at 1. -/
theorem C8_witness :
    (∀ op ∈ ([DelayOp.simple 0 1 [1, 2], DelayOp.feedback 0 1 0 [3]] : List DelayOp),
      op.input.length ≤ (DelayLine.init 1 1).m_lBufferSize) ∧
    ((runOps (activateDelayLine (DelayLine.init 1 1))
        [DelayOp.simple 0 1 [1, 2], DelayOp.feedback 0 1 0 [3]]).2.m_lWritePointer
      = (([DelayOp.simple 0 1 [1, 2], DelayOp.feedback 0 1 0 [3]] : List DelayOp).map
          fun op => op.input.length).sum % (DelayLine.init 1 1).m_lBufferSize ∧
     (runOps (activateDelayLine (DelayLine.init 1 1))
        [DelayOp.simple 0 1 [1, 2], DelayOp.feedback 0 1 0 [3]]).2.m_lWritePointer
      < (DelayLine.init 1 1).m_lBufferSize) := by
  have hsz : ∀ op ∈ ([DelayOp.simple 0 1 [1, 2], DelayOp.feedback 0 1 0 [3]] : List DelayOp),
      op.input.length ≤ (DelayLine.init 1 1).m_lBufferSize := by
    intro op hop
    have hsize : (DelayLine.init 1 1).m_lBufferSize = 2 := by
      norm_num [DelayLine.init, minimumBufferSize]
      decide
    rw [hsize]
    simp only [List.mem_cons, List.not_mem_nil, or_false] at hop
    rcases hop with rfl | rfl <;> decide
  exact ⟨hsz, C8_cursor_advance 1 1 (by decide) (by norm_num) _ hsz⟩

/-- C1 (amended): from an activated engine, feeding an impulse stream (one
sample 1 at position `p`, rest 0) split into arbitrary blocks, with wet
parameter 1, the concatenated output stream is the impulse stream delayed by
`lDelay` samples, where `lDelay = floor(clamp(d, 0, maxDelay) * sampleRate)`
is the TRUNCATED delay (the code truncates rather than rounds): the only
nonzero output sample is a 1 at offset `lDelay` after the impulse. -/
theorem C1_impulse_response (lSampleRate : ℕ) (fMaximumDelay delayPort : ℚ)
    (h1 : 0 < lSampleRate) (h2 : 0 < fMaximumDelay)
    (blocks : List (List ℚ)) (L p : ℕ)
    (hin : blocks.flatten = impulseList L p) :
    (processBlocksSimple (activateDelayLine (DelayLine.init lSampleRate fMaximumDelay))
        delayPort 1 blocks).1
      = impulseList L (p + lDelay (DelayLine.init lSampleRate fMaximumDelay) delayPort) := by
  have hre : Reachable (activateDelayLine (DelayLine.init lSampleRate fMaximumDelay)) :=
    (Reachable.init lSampleRate fMaximumDelay h1 h2).activate
  have hgood := hre.good
  rw [processBlocksSimple_eq_join hgood, hin]
  obtain ⟨k, hk⟩ := init_bufferSize_pow2 lSampleRate fMaximumDelay
  exact runSimple_impulse k hk rfl rfl delayPort
    (lDelay_lt_bufferSize hgood delayPort) L p

/-- C1 (counterexample to the claim as stated): at sample rate 2 with delay
parameter 3/4 seconds, `d * sampleRate = 1.5`; the code truncates to 1 and
the impulse appears at offset 1 (`[0, 1, 0]`), whereas the claim's
`round(d * sampleRate) = 2` predicts offset 2 (`[0, 0, 1]`). -/
theorem C1_counterexample :
    (processBlocksSimple (activateDelayLine (DelayLine.init 2 1)) (3/4) 1 [[1, 0, 0]]).1
      = impulseList 3 1 ∧
    (round ((3/4 : ℚ) * 2)).toNat = 2 ∧
    (processBlocksSimple (activateDelayLine (DelayLine.init 2 1)) (3/4) 1 [[1, 0, 0]]).1
      ≠ impulseList 3 ((round ((3/4 : ℚ) * 2)).toNat) := by
  have h1 : (processBlocksSimple (activateDelayLine (DelayLine.init 2 1)) (3/4) 1
      [[1, 0, 0]]).1 = impulseList 3 1 := by
    norm_num [processBlocksSimple, runSimpleDelayLine, simpleDelayLoop, lDelay,
      clampedDelaySeconds, clampedWet, LIMIT_BETWEEN, DelayLine.init,
      activateDelayLine, minimumBufferSize, growBufferSize, impulseList] <;> decide
  have h2 : (round ((3/4 : ℚ) * 2)).toNat = 2 := by
    norm_num [round_eq] <;> decide
  refine ⟨h1, h2, ?_⟩
  rw [h1, h2]
  decide

/-- Witness for the amended C1: an impulse at position 0 split across two
blocks, delay parameter 3/4 at sample rate 2 (1 sample of delay). -/
theorem C1_witness :
    0 < 2 ∧ (0 : ℚ) < 1 ∧
    ([[1, 0], [0]] : List (List ℚ)).flatten = impulseList 3 0 ∧
    (processBlocksSimple (activateDelayLine (DelayLine.init 2 1)) (3/4) 1 [[1, 0], [0]]).1
      = impulseList 3 (0 + lDelay (DelayLine.init 2 1) (3/4)) :=
  ⟨by decide, by norm_num, by decide,
   C1_impulse_response 2 1 (3/4) (by decide) (by norm_num) [[1, 0], [0]] 3 0 (by decide)⟩
